import Mathlib

/-!
Shallow embedding of the knowledge-graph indexing and retrieval engine of
this repository: `src/integrations/vault_indexer.py` (index build, search,
batch, stats) and `src/integrations/knowledge.py` (notes, backlinks, graph,
orphans, section-scoped append).

Python strings are modelled as `List Char`; `str.lower` as character-wise
`Char.toLower` (faithful on ASCII, which covers every literal the engine
itself compares against); regular-expression scans are translated as
explicit left-to-right scanners with the same match semantics as the
patterns in the source.  Filesystem enumeration is modelled by passing the
list of readable notes of each vault; timestamps are passed as parameters.
-/

namespace VaultEngine

/-- Python whitespace, as recognised by `str.strip`, `str.split` and `\s`. -/
def pyIsSpaceB (c : Char) : Bool :=
  c == ' ' || c == '\t' || c == '\n' || c == '\r' || c == '\x0b' || c == '\x0c'

/-- Python `s.lower()` (ASCII-faithful). -/
def pyLower (s : List Char) : List Char := s.map Char.toLower

/-- Python `s.strip()`. -/
def pyStrip (s : List Char) : List Char :=
  ((s.dropWhile pyIsSpaceB).reverse.dropWhile pyIsSpaceB).reverse

/-- Python `s.rstrip()`. -/
def pyRstrip (s : List Char) : List Char :=
  (s.reverse.dropWhile pyIsSpaceB).reverse

/-- Python `s.strip(q)` for a single-character set `q`. -/
def pyStripChar (q : Char) (s : List Char) : List Char :=
  ((s.dropWhile (· == q)).reverse.dropWhile (· == q)).reverse

/-- Python substring test, `needle in hay`. -/
def strContains (hay needle : List Char) : Bool :=
  if needle.isPrefixOf hay then true
  else
    match hay with
    | [] => false
    | _ :: t => strContains t needle

/-- Python lexicographic string comparison by code point, `a < b`. -/
def strLt : List Char → List Char → Bool
  | [], [] => false
  | [], _ :: _ => true
  | _ :: _, [] => false
  | a :: as, b :: bs => if a < b then true else if a == b then strLt as bs else false

/-- Python `s.split(sep)` for a one-character separator (keeps empty pieces). -/
def splitOnChar (sep : Char) : List Char → List (List Char)
  | [] => [[]]
  | c :: rest =>
    if c == sep then [] :: splitOnChar sep rest
    else
      match splitOnChar sep rest with
      | [] => [[c]]
      | l :: ls => (c :: l) :: ls

def splitLines (s : List Char) : List (List Char) := splitOnChar '\n' s

/-- Python `'\n'.join(ls)`. -/
def joinLines : List (List Char) → List Char
  | [] => []
  | [l] => l
  | l :: rest => l ++ '\n' :: joinLines rest

/-- Python `' '.join(ls)`. -/
def joinSpace : List (List Char) → List Char
  | [] => []
  | [l] => l
  | l :: rest => l ++ ' ' :: joinSpace rest

def wcGo : List Char → Bool → Nat
  | [], _ => 0
  | c :: rest, inWord =>
    if pyIsSpaceB c then wcGo rest false
    else (if inWord then 0 else 1) + wcGo rest true

/-- Python `len(content.split())`: the number of maximal nonblank runs. -/
def wordCount (s : List Char) : Nat := wcGo s false

/-- Python-dict assignment `d[k] = v` on an insertion-ordered assoc list:
an existing key keeps its position and gets the new value. -/
def upsert {β : Type} (d : List (List Char × β)) (k : List Char) (v : β) :
    List (List Char × β) :=
  match d with
  | [] => [(k, v)]
  | (k', v') :: rest => if k' == k then (k, v) :: rest else (k', v') :: upsert rest k v

/-- Python-dict lookup `d.get(k)`. -/
def lookupD {β : Type} (d : List (List Char × β)) (k : List Char) : Option β :=
  match d with
  | [] => none
  | (k', v) :: rest => if k' == k then some v else lookupD rest k

/-- Python-dict counter update `d[k] = d.get(k, 0) + 1`. -/
def dictIncr (d : List (List Char × Nat)) (k : List Char) : List (List Char × Nat) :=
  match d with
  | [] => [(k, 1)]
  | (k', c) :: rest => if k' == k then (k', c + 1) :: rest else (k', c) :: dictIncr rest k

/-! Regular-expression scanners of `vault_indexer.py` / `knowledge.py`. -/

def wikiTargetChar (c : Char) : Bool := !(c == ']') && !(c == '|')

/-- One attempt of `WIKILINK_PATTERN` at the current position: on success,
the captured target plus the number of characters the match consumed. -/
def wikiTry (cs : List Char) : Option (List Char × Nat) :=
  match cs with
  | '[' :: '[' :: rest =>
    let tgt := rest.takeWhile wikiTargetChar
    if tgt.length == 0 then none
    else
      match rest.drop tgt.length with
      | ']' :: ']' :: _ => some (tgt, tgt.length + 4)
      | '|' :: rest2 =>
        let ali := rest2.takeWhile (fun c => !(c == ']'))
        if ali.length == 0 then none
        else
          match rest2.drop ali.length with
          | ']' :: ']' :: _ => some (tgt, tgt.length + ali.length + 5)
          | _ => none
      | _ => none
  | _ => none

/-- Left-to-right non-overlapping scan (`re.findall` semantics): advance one
character on failure, past the whole match on success.  Every step consumes
at least one character, so fuel `length + 1` never runs out. -/
def wikiGo : Nat → List Char → List (List Char)
  | 0, _ => []
  | _ + 1, [] => []
  | fuel + 1, c :: rest =>
    match wikiTry (c :: rest) with
    | some (tgt, n) => tgt :: wikiGo fuel ((c :: rest).drop n)
    | none => wikiGo fuel rest

/-- `WIKILINK_PATTERN.findall(content)`. -/
def extract_links (content : List Char) : List (List Char) :=
  wikiGo (content.length + 1) content

def tagChar (c : Char) : Bool := c.isAlpha || c.isDigit || c == '_' || c == '/' || c == '-'

def tagsGo : Nat → List Char → List (List Char)
  | 0, _ => []
  | _ + 1, [] => []
  | fuel + 1, '#' :: rest =>
    (match rest with
     | c :: _ =>
       if c.isAlpha then
         let run := rest.takeWhile tagChar
         if 2 ≤ run.length then run :: tagsGo fuel (rest.drop run.length)
         else tagsGo fuel rest
       else tagsGo fuel rest
     | [] => [])
  | fuel + 1, _ :: rest => tagsGo fuel rest

/-- `TAG_PATTERN.findall(content)`: a hash, one letter, then at least one
more letter / digit / underscore / slash / dash, captured without the hash. -/
def extract_tags (content : List Char) : List (List Char) :=
  tagsGo (content.length + 1) content

structure MdHeading where
  level : Nat
  text : List Char
deriving DecidableEq

/-- The largest index `j ≥ 1` of `w` holding a character other than a
newline: where backtracking leaves the whitespace-to-text boundary when the
whitespace run after the markers reaches the end of the note. -/
def lastNonNlIdx (w : List Char) : Option Nat :=
  match w.reverse.findIdx? (fun c => !(c == '\n')) with
  | some r => if 1 ≤ w.length - 1 - r then some (w.length - 1 - r) else none
  | none => none

/-- One attempt of the multiline `HEADING_PATTERN` at a line start: one to
six marker characters, then greedy whitespace — which may cross newlines —
then the captured text running to the end of its line, stripped by the
caller.  Returns the heading plus the number of characters consumed. -/
def headingTry (cs : List Char) : Option (MdHeading × Nat) :=
  let run := cs.takeWhile (· == '#')
  if decide (1 ≤ run.length) && decide (run.length ≤ 6) then
    let rest := cs.drop run.length
    let w := rest.takeWhile pyIsSpaceB
    if w.length == 0 then none
    else
      match rest.drop w.length with
      | c :: more =>
        let txt := c :: more.takeWhile (fun ch => !(ch == '\n'))
        some (⟨run.length, pyStrip txt⟩, run.length + w.length + txt.length)
      | [] =>
        match lastNonNlIdx w with
        | some j => some (⟨run.length, pyStrip [w.getD j ' ']⟩, run.length + j + 1)
        | none => none
  else none

/-- Advance to the position right after the next newline (the next multiline
`^` anchor), or to the end of the note. -/
def nextLineStart (cs : List Char) : List Char :=
  (cs.dropWhile (fun c => !(c == '\n'))).drop 1

def headingsGo : Nat → List Char → List MdHeading
  | 0, _ => []
  | _ + 1, [] => []
  | fuel + 1, cs =>
    match headingTry cs with
    | some (h, n) => h :: headingsGo fuel (nextLineStart (cs.drop n))
    | none => headingsGo fuel (nextLineStart cs)

/-- `extract_headings` of `vault_indexer.py`
(`HEADING_PATTERN.finditer(content)` with the captured text stripped). -/
def extract_headings (content : List Char) : List MdHeading :=
  headingsGo (content.length + 1) content

/-- Does `cs` start the closing delimiter of the metadata block, i.e. a
newline, three dashes, then whitespace containing another newline? -/
def isFmClose (cs : List Char) : Bool :=
  match cs with
  | '\n' :: '-' :: '-' :: '-' :: rest => (rest.takeWhile pyIsSpaceB).contains '\n'
  | _ => false

/-- The lazily-minimal frontmatter body: the shortest prefix of `cs` that is
followed by a closing delimiter. -/
def fmBody : List Char → Option (List Char)
  | [] => none
  | c :: rest => if isFmClose (c :: rest) then some [] else (fmBody rest).map (c :: ·)

/-- Greedy-with-backtracking opening delimiter: after the three leading
dashes, try the longest whitespace prefix ending in a newline first, and for
each candidate look for a closing delimiter. -/
def fmFindOpen (rest : List Char) : Nat → Option (List Char)
  | 0 => none
  | k + 1 =>
    if (rest.getD k ' ' == '\n') && (rest.take k).all pyIsSpaceB then
      match fmBody (rest.drop (k + 1)) with
      | some body => some body
      | none => fmFindOpen rest k
    else fmFindOpen rest k

/-- One `key: value` line of the metadata block: split at the first colon,
strip the key, strip the value and peel surrounding quote characters. -/
def fmLine (d : List (List Char × List Char)) (line : List Char) :
    List (List Char × List Char) :=
  if line.contains ':' then
    let key := line.takeWhile (fun c => !(c == ':'))
    let value := (line.drop key.length).drop 1
    upsert d (pyStrip key) (pyStripChar '\'' (pyStripChar '"' (pyStrip value)))
  else d

/-- `extract_frontmatter` of `vault_indexer.py` (`FRONTMATTER_PATTERN` is
anchored at the start of the note). -/
def extract_frontmatter (content : List Char) : List (List Char × List Char) :=
  match content with
  | '-' :: '-' :: '-' :: rest =>
    match fmFindOpen rest rest.length with
    | some body => (splitLines body).foldl fmLine []
    | none => []
  | _ => []

/-! Summary, categorisation and date derivation (`index_note`). -/

/-- A line contributing to the summary: non-blank, not starting with a hash
and not starting with a code fence. -/
def isSummaryLine (l : List Char) : Bool :=
  !(pyStrip l).isEmpty && !(l.headD ' ' == '#') && !(("```".toList).isPrefixOf l)

/-- The accumulation loop of the summary extraction in `index_note`: lines
whose stripped form is three dashes toggle the metadata state; qualifying
lines are stripped and accumulated until the joined length exceeds 200. -/
def summaryGo : List (List Char) → List (List Char) → Bool → List (List Char)
  | [], acc, _ => acc
  | l :: rest, acc, inFm =>
    if pyStrip l == ("---".toList) then summaryGo rest acc (!inFm)
    else if inFm then summaryGo rest acc inFm
    else if isSummaryLine l then
      (if 200 < (joinSpace (acc ++ [pyStrip l])).length then acc ++ [pyStrip l]
       else summaryGo rest (acc ++ [pyStrip l]) inFm)
    else summaryGo rest acc inFm

/-- The summary field of `index_note`: accumulated stripped lines joined by
single spaces, truncated to 300 characters. -/
def noteSummary (content : List Char) : List Char :=
  (joinSpace (summaryGo (splitLines content) [] false)).take 300

/-- Anchored `DATE_PATTERN.match`: four digits, dash, two digits, dash, two
digits at the start. -/
def isDateAt : List Char → Bool
  | a :: b :: c :: d :: '-' :: e :: f :: '-' :: g :: h :: _ =>
    a.isDigit && b.isDigit && c.isDigit && d.isDigit &&
    e.isDigit && f.isDigit && g.isDigit && h.isDigit
  | _ => false

/-- `DATE_PATTERN.search`: the first ten-character window shaped like an ISO
date, captured. -/
def dateSearch : List Char → Option (List Char)
  | [] => none
  | c :: rest => if isDateAt (c :: rest) then some ((c :: rest).take 10) else dateSearch rest

/-- Date derivation of `index_note`: filename first; otherwise the `date`
metadata entry if that key exists (even when it contains no date); otherwise
the `created` entry. -/
def deriveDate (stem : List Char) (fm : List (List Char × List Char)) : Option (List Char) :=
  match dateSearch stem with
  | some d => some d
  | none =>
    match lookupD fm ("date".toList) with
    | some v => dateSearch v
    | none =>
      match lookupD fm ("created".toList) with
      | some v => dateSearch v
      | none => none

def kwAny (contentLower : List Char) (ws : List String) : Bool :=
  ws.any (fun w => strContains contentLower w.toList)

def catIf (b : Bool) (label : String) : List (List Char) :=
  if b then [label.toList] else []

def dedupFirstGo : List (List Char) → List (List Char) → List (List Char)
  | [], _ => []
  | x :: rest, seen =>
    if seen.contains x then dedupFirstGo rest seen else x :: dedupFirstGo rest (x :: seen)

/-- CPython's `list(set(cats))` iterates the set in a hash-determined order
that is fixed within one process; modelled as first-occurrence order. -/
def dedupKeepFirst (l : List (List Char)) : List (List Char) := dedupFirstGo l []

/-- `categorize_note` of `vault_indexer.py`: the path rules, the
date-named-file rule, the thirteen keyword rules in source order, then the
comma-split `tags` metadata entry, deduplicated; `uncategorized` when no
rule fired. -/
def categorize_note (pathStr stem content : List Char)
    (fm : List (List Char × List Char)) : List (List Char) :=
  let ps := pyLower pathStr
  let cl := pyLower content
  let nm := pyLower stem
  let cats :=
    catIf (strContains ps ("41 daily".toList) || strContains ps ("periodic".toList)) "journal"
    ++ catIf (strContains ps ("template".toList)) "template"
    ++ catIf (strContains ps ("meta".toList)) "meta"
    ++ catIf (strContains ps ("excalidraw".toList)) "drawing"
    ++ catIf (isDateAt nm) "journal"
    ++ catIf (kwAny cl ["meeting", "agenda", "attendees", "action items"]) "meeting"
    ++ catIf (kwAny cl ["project", "milestone", "deadline", "deliverable"]) "project"
    ++ catIf (kwAny cl ["learn", "course", "study", "homework", "assignment", "school", "exam"]) "education"
    ++ catIf (kwAny cl ["goal", "objective", "resolution", "habit"]) "goals"
    ++ catIf (kwAny cl ["idea", "brainstorm", "concept", "thought experiment"]) "ideas"
    ++ catIf (kwAny cl ["book", "reading", "author", "chapter"]) "reading"
    ++ catIf (kwAny cl ["code", "programming", "function", "api", "software", "dev"]) "technical"
    ++ catIf (kwAny cl ["reflect", "feeling", "grateful", "mood", "emotion"]) "reflection"
    ++ catIf (kwAny cl ["person", "friend", "family", "contact"]) "people"
    ++ catIf (kwAny cl ["work", "job", "career", "company", "business"]) "work"
    ++ catIf (kwAny cl ["health", "exercise", "fitness", "diet", "sleep"]) "health"
    ++ catIf (kwAny cl ["philosophy", "meaning", "existential", "values", "ethics"]) "philosophy"
    ++ catIf (kwAny cl ["creative", "writing", "story", "poem", "art", "music"]) "creative"
    ++ (match lookupD fm ("tags".toList) with
        | some tv => (splitOnChar ',' tv).map pyStrip
        | none => [])
  if cats.isEmpty then [("uncategorized".toList)] else dedupKeepFirst cats

/-- A readable note file: full path string, filename stem, path relative to
its vault root, and decoded content.  Notes whose read raises are excluded
before indexing (the per-note `try` in `index_note`), so only readable notes
are modelled. -/
structure RawNote where
  pathStr : List Char
  stem : List Char
  relPath : List Char
  content : List Char
deriving DecidableEq

structure NoteRecord where
  name : List Char
  path : List Char
  vault : List Char
  date : Option (List Char)
  categories : List (List Char)
  tags : List (List Char)
  links : List (List Char)
  link_count : Nat
  headings : List MdHeading
  frontmatter : List (List Char × List Char)
  summary : List Char
  word_count : Nat
  char_count : Nat
deriving DecidableEq

/-- `index_note` of `vault_indexer.py`. -/
def index_note (vaultName : List Char) (p : RawNote) : NoteRecord :=
  let fm := extract_frontmatter p.content
  let links := extract_links p.content
  { name := p.stem, path := p.relPath, vault := vaultName,
    date := deriveDate p.stem fm,
    categories := categorize_note p.pathStr p.stem p.content fm,
    tags := extract_tags p.content,
    links := links, link_count := links.length,
    headings := extract_headings p.content,
    frontmatter := fm,
    summary := noteSummary p.content,
    word_count := wordCount p.content,
    char_count := p.content.length }

structure IndexStats where
  total_notes : Nat
  categories : List (List Char × Nat)
  tags : List (List Char × Nat)
  earliest : Option (List Char)
  latest : Option (List Char)
  total_words : Nat
deriving DecidableEq

structure BuiltIndex where
  notes : List NoteRecord
  built_at : List Char
  stats : IndexStats
deriving DecidableEq

def foldCats (notes : List NoteRecord) : List (List Char × Nat) :=
  notes.foldl (fun d n => n.categories.foldl dictIncr d) []

def foldTags (notes : List NoteRecord) : List (List Char × Nat) :=
  notes.foldl (fun d n => n.tags.foldl dictIncr d) []

def foldEarliest (notes : List NoteRecord) : Option (List Char) :=
  notes.foldl (fun e n =>
    match n.date, e with
    | none, _ => e
    | some d, none => some d
    | some d, some cur => if strLt d cur then some d else some cur) none

def foldLatest (notes : List NoteRecord) : Option (List Char) :=
  notes.foldl (fun e n =>
    match n.date, e with
    | none, _ => e
    | some d, none => some d
    | some d, some cur => if strLt cur d then some d else some cur) none

/-- The vault walk of `build_index`: samuel then iris, each included when it
is the requested vault or no vault was requested.  A vault root that does
not exist is modelled as an empty note list. -/
def buildNotes (vaultArg : Option (List Char)) (samuel iris : List RawNote) :
    List NoteRecord :=
  (if vaultArg == some ("samuel".toList) || vaultArg == none then
     samuel.map (index_note ("samuel".toList)) else [])
  ++ (if vaultArg == some ("iris".toList) || vaultArg == none then
        iris.map (index_note ("iris".toList)) else [])

/-- `build_index` of `vault_indexer.py`: the note records in walk order plus
the aggregate statistics; `datetime.now().isoformat()` is the `builtAt`
parameter.  The write of the snapshot file is the caller's side effect. -/
def build_index (vaultArg : Option (List Char)) (samuel iris : List RawNote)
    (builtAt : List Char) : BuiltIndex :=
  let notes := buildNotes vaultArg samuel iris
  { notes := notes, built_at := builtAt,
    stats := { total_notes := notes.length,
               categories := foldCats notes,
               tags := foldTags notes,
               earliest := foldEarliest notes,
               latest := foldLatest notes,
               total_words := notes.foldl (fun a n => a + n.word_count) 0 } }

/-! Search, batch, stats (`vault_indexer.py` consumer operations). -/

/-- The filter block of `search_index`: vault equality, category membership,
and the two date bounds, each of which passes a note whose derived date is
`None`. -/
def passesFilters (vaultF category date_from date_to : Option (List Char))
    (n : NoteRecord) : Bool :=
  (match vaultF with
   | none => true
   | some v => n.vault == v)
  && (match category with
      | none => true
      | some c => n.categories.contains c)
  && (match date_from with
      | none => true
      | some df =>
        match n.date with
        | none => true
        | some d => !(strLt d df))
  && (match date_to with
      | none => true
      | some dt =>
        match n.date with
        | none => true
        | some d => !(strLt dt d))

/-- The scoring block of `search_index`: word count for an empty query, and
for a non-empty query the name-substring test adding ten plus twenty more on
exact equality, then the summary, tag and heading substring tests. -/
def noteScore (queryLower : List Char) (n : NoteRecord) : Nat :=
  if queryLower.isEmpty then n.word_count
  else
    (if strContains (pyLower n.name) queryLower then
       10 + (if pyLower n.name == queryLower then 20 else 0)
     else 0)
    + (if strContains (pyLower n.summary) queryLower then 5 else 0)
    + (if n.tags.any (fun t => strContains (pyLower t) queryLower) then 3 else 0)
    + (if n.headings.any (fun h => strContains (pyLower h.text) queryLower) then 4 else 0)

/-- The main loop of `search_index`: filtered notes paired with their score,
dropping zero-scoring notes when the query is non-empty. -/
def searchCandidates (query : List Char) (vaultF category date_from date_to : Option (List Char))
    (notes : List NoteRecord) : List (NoteRecord × Nat) :=
  notes.filterMap (fun n =>
    if passesFilters vaultF category date_from date_to n then
      let s := noteScore (pyLower query) n
      if !(pyLower query).isEmpty && s == 0 then none else some (n, s)
    else none)

/-- Descending-score order used by the final sort of `search_index`. -/
def scoreGe (a b : NoteRecord × Nat) : Prop := b.2 ≤ a.2

instance : DecidableRel scoreGe := fun a b => Nat.decLe b.2 a.2

instance : IsTotal (NoteRecord × Nat) scoreGe := ⟨fun a b => Nat.le_total b.2 a.2⟩

instance : IsTrans (NoteRecord × Nat) scoreGe := ⟨fun _ _ _ hab hbc => Nat.le_trans hbc hab⟩

/-- `search_index` over a decoded snapshot: filter, score, stable-sort by
descending score, truncate.  CPython's `list.sort(reverse=True)` and
`List.insertionSort` are both stable; the spec leaves the relative order of
equal scores implementation-defined. -/
def search_index (query : List Char) (vaultF category date_from date_to : Option (List Char))
    (limit : Nat) (notes : List NoteRecord) : List (NoteRecord × Nat) :=
  (List.insertionSort scoreGe
    (searchCandidates query vaultF category date_from date_to notes)).take limit

/-- The sort key comparison of `get_batch`: date (defaulting to the zero
date) then name, as Python compares the tuples. -/
def batchKeyLt (a b : NoteRecord) : Bool :=
  let da := a.date.getD ("0000-00-00".toList)
  let db := b.date.getD ("0000-00-00".toList)
  strLt da db || (da == db && strLt a.name b.name)

/-- Descending batch order (`reverse=True`): `a` precedes `b` when `a`'s key
is not smaller. -/
def batchRel (a b : NoteRecord) : Prop := batchKeyLt a b = false

instance : DecidableRel batchRel := fun a b => instDecidableEqBool (batchKeyLt a b) false

structure BatchResult where
  batch : List NoteRecord
  offset : Nat
  limit : Nat
  total : Nat
  has_more : Bool
deriving DecidableEq

/-- `get_batch` over a decoded snapshot. -/
def get_batch (offset limit : Nat) (category vaultF : Option (List Char))
    (notes : List NoteRecord) : BatchResult :=
  let ns1 := match category with
    | none => notes
    | some c => notes.filter (fun n => n.categories.contains c)
  let ns2 := match vaultF with
    | none => ns1
    | some v => ns1.filter (fun n => n.vault == v)
  let sorted := List.insertionSort batchRel ns2
  { batch := (sorted.drop offset).take limit, offset := offset, limit := limit,
    total := ns2.length, has_more := decide (offset + limit < ns2.length) }

/-- The three observable states of the persisted snapshot file. -/
inductive Snapshot where
  | absent
  | unparsable
  | parsed (idx : BuiltIndex)
deriving DecidableEq

/-- The loading discipline shared by `search_index`, `get_batch` and
`get_categories`: a missing snapshot file triggers `build_index()` (which
writes a fresh snapshot that the subsequent read decodes); a file that
exists but is not valid JSON makes `json.loads` raise, modelled as
`Except.error`. -/
def loadForQuery (snap : Snapshot) (samuel iris : List RawNote) (now : List Char) :
    Except Unit BuiltIndex :=
  match snap with
  | .absent => .ok (build_index none samuel iris now)
  | .unparsable => .error ()
  | .parsed idx => .ok idx

/-- The `search` command end to end: load (rebuilding when absent), then
filter, score, sort and truncate. -/
def search_op (snap : Snapshot) (samuel iris : List RawNote) (now : List Char)
    (query : List Char) (vaultF category date_from date_to : Option (List Char))
    (limit : Nat) : Except Unit (List (NoteRecord × Nat)) :=
  (loadForQuery snap samuel iris now).map (fun idx =>
    search_index query vaultF category date_from date_to limit idx.notes)

/-- The `batch` command end to end. -/
def batch_op (snap : Snapshot) (samuel iris : List RawNote) (now : List Char)
    (offset limit : Nat) (category vaultF : Option (List Char)) :
    Except Unit BatchResult :=
  (loadForQuery snap samuel iris now).map (fun idx =>
    get_batch offset limit category vaultF idx.notes)

/-- The `categories` command end to end. -/
def categories_op (snap : Snapshot) (samuel iris : List RawNote) (now : List Char) :
    Except Unit (List (List Char × Nat)) :=
  (loadForQuery snap samuel iris now).map (fun idx => idx.stats.categories)

/-- What the `stats` command can produce. -/
inductive StatsOutcome where
  | errorValue
  | raised
  | answered (s : IndexStats)
deriving DecidableEq

/-- `get_stats` does not rebuild: a missing snapshot yields the structured
error dict, and an unparsable one raises from `json.loads`. -/
def stats_op (snap : Snapshot) : StatsOutcome :=
  match snap with
  | .absent => .errorValue
  | .unparsable => .raised
  | .parsed idx => .answered idx.stats

/-! `knowledge.py`: note lookup, backlinks, graph, orphans, append. -/

/-- `find_note`'s per-vault lookup: exact stem match, then (when the query
already carries the extension) exact filename match, then case-insensitive
stem match, in filesystem walk order. -/
def findNoteIn (name : List Char) (notes : List RawNote) : Option RawNote :=
  match notes.find? (fun p => p.stem == name) with
  | some p => some p
  | none =>
    match (if (".md".toList).isSuffixOf name then
             notes.find? (fun p => p.stem ++ (".md".toList) == name)
           else none) with
    | some p => some p
    | none => notes.find? (fun p => pyLower p.stem == pyLower name)

/-- `find_note(name)` with no vault argument: the stripped name is resolved
in the iris vault first, then in the samuel vault. -/
def find_note (name : List Char) (iris samuel : List RawNote) :
    Option (List Char × RawNote) :=
  match findNoteIn (pyStrip name) iris with
  | some p => some (("iris".toList), p)
  | none =>
    match findNoteIn (pyStrip name) samuel with
    | some p => some (("samuel".toList), p)
    | none => none

structure BacklinkEntry where
  name : List Char
  path : List Char
  vault : List Char
deriving DecidableEq

/-- One vault pass of `get_backlinks`: a note contributes one entry when any
of its outgoing references matches the target case-insensitively (the inner
loop `break`s after the first matching link). -/
def scanBacklinks (vaultName : List Char) (notes : List RawNote)
    (targetLower : List Char) : List BacklinkEntry :=
  notes.filterMap (fun p =>
    if (extract_links p.content).any (fun l => pyLower l == targetLower) then
      some { name := p.stem, path := p.relPath, vault := vaultName }
    else none)

/-- `get_backlinks` of `knowledge.py`: samuel scanned first, then iris, each
when selected by the vault filter. -/
def get_backlinks (target : List Char) (vaultF : Option (List Char))
    (samuel iris : List RawNote) : List BacklinkEntry :=
  (if vaultF == some ("samuel".toList) || vaultF == none then
     scanBacklinks ("samuel".toList) samuel (pyLower target) else [])
  ++ (if vaultF == some ("iris".toList) || vaultF == none then
        scanBacklinks ("iris".toList) iris (pyLower target) else [])

structure GraphResult where
  name : List Char
  vault : List Char
  outgoing_links : List (List Char)
  incoming_links : List (List Char)
  total_connections : Nat
deriving DecidableEq

/-- `get_graph` of `knowledge.py`: `read_note`'s raw outgoing reference list
(no existence check on the targets), the backlink source names, and the sum
of the two list lengths.  `none` models the error dict for a missing note. -/
def get_graph (name : List Char) (samuel iris : List RawNote) : Option GraphResult :=
  match find_note name iris samuel with
  | none => none
  | some (vname, p) =>
    let links := extract_links p.content
    let backs := get_backlinks name none samuel iris
    some { name := p.stem, vault := vname, outgoing_links := links,
           incoming_links := backs.map (fun b => b.name),
           total_connections := links.length + backs.length }

structure OrphanEntry where
  name : List Char
  vault : List Char
deriving DecidableEq

/-- `find_orphans` of `knowledge.py`: the iris-vault notes (keyed by
lowercased stem, later duplicates overwriting earlier values in place as in
a Python dict) whose lowered stem never occurs among the lowered targets of
any reference in the vault — the scan includes each note's own references —
excluding the entry-point stem `index`. -/
def find_orphans (irisNotes : List RawNote) : List OrphanEntry :=
  let all_notes := irisNotes.foldl (fun d p => upsert d (pyLower p.stem) p.stem) []
  let linked := (irisNotes.map (fun p => (extract_links p.content).map pyLower)).flatten
  all_notes.filterMap (fun kv =>
    if !(linked.contains kv.1) && !(kv.1 == ("index".toList)) then
      some { name := kv.2, vault := ("iris".toList) }
    else none)

/-- The current line: characters up to the next newline. -/
def lineOf (cs : List Char) : List Char := cs.takeWhile (fun c => !(c == '\n'))

/-- Does a single line match `section_pattern` without crossing its end:
two or more marker characters, a space, then the section name as a prefix of
the rest of the line?  For section names free of newlines this coincides
with the full matcher `secMatchLen` below. -/
def secLineB (sec line : List Char) : Bool :=
  decide (2 ≤ (line.takeWhile (· == '#')).length)
  && (' ' :: sec).isPrefixOf (line.dropWhile (· == '#'))

/-- Is this line the start of a heading with two or more marker characters,
i.e. does `##+ ` match at its start? -/
def h2LineB (line : List Char) : Bool :=
  decide (2 ≤ (line.takeWhile (· == '#')).length)
  && ((line.dropWhile (· == '#')).headD 'x' == ' ')

/-- One attempt of `section_pattern` at a line start: two or more marker
characters, a space, then the literally-escaped section name — which may
itself contain newlines, in which case the match spans lines — and then the
rest of the line holding the last matched character.  On success returns
`match.end()` relative to the attempt position: the characters consumed by
the markers, the space and the section name, extended to the end of the
current line. -/
def secMatchLen (sec cs : List Char) : Option Nat :=
  let run := cs.takeWhile (· == '#')
  if decide (2 ≤ run.length) && (' ' :: sec).isPrefixOf (cs.dropWhile (· == '#')) then
    let consumed := run.length + 1 + sec.length
    some (consumed + ((cs.drop consumed).takeWhile (fun c => !(c == '\n'))).length)
  else none

/-- `section_pattern.search(existing)`: try each line start in order and
return `match.end()` of the first match.  Fuel `length + 1` suffices since
every step consumes a full line plus newline. -/
def sectionEndGo (sec : List Char) : Nat → List Char → Nat → Option Nat
  | 0, _, _ => none
  | fuel + 1, cs, pos =>
    match secMatchLen sec cs with
    | some e => some (pos + e)
    | none =>
      match cs.drop (lineOf cs).length with
      | _ :: rest => sectionEndGo sec fuel rest (pos + (lineOf cs).length + 1)
      | [] => none

def sectionEndPos (sec existing : List Char) : Option Nat :=
  sectionEndGo sec (existing.length + 1) existing 0

/-- `re.search(r'\n##+ ', tail)`: the offset of the first newline followed
by a level-two-or-deeper heading start. -/
def nlHeadingPos : List Char → Nat → Option Nat
  | [], _ => none
  | c :: rest, pos =>
    if c == '\n' then
      if h2LineB rest then some pos else nlHeadingPos rest (pos + 1)
    else nlHeadingPos rest (pos + 1)

/-- `append_to_note` of `knowledge.py`, as the transformation of the found
note's text (the note lookup and write-back are the caller's I/O): with a
section, insert before the next `##+ ` heading after the first
`##+ <section>` line, or at the end; with no matching section line, append a
fresh level-two heading; with no section, append at the end. -/
def append_to_note (existing x : List Char) (sec : Option (List Char)) : List Char :=
  match sec with
  | some s =>
    match sectionEndPos s existing with
    | some e =>
      match nlHeadingPos (existing.drop e) 0 with
      | some off =>
        pyRstrip (existing.take (e + off)) ++ ('\n' :: '\n' :: x)
          ++ ('\n' :: existing.drop (e + off))
      | none => pyRstrip existing ++ ('\n' :: '\n' :: x) ++ ['\n']
    | none =>
      pyRstrip existing ++ ('\n' :: '\n' :: '#' :: '#' :: ' ' :: s)
        ++ ('\n' :: '\n' :: x) ++ ['\n']
  | none => pyRstrip existing ++ ('\n' :: '\n' :: x) ++ ['\n']

/-! Auxiliary characterisations used by the theorems below. -/

/-- The lines outside the dash-toggled metadata regions, with the toggle
lines themselves removed: the compositional counterpart of the summary
loop's state. -/
def keepToggle : List (List Char) → Bool → List (List Char)
  | [], _ => []
  | l :: rest, inFm =>
    if pyStrip l == ("---".toList) then keepToggle rest (!inFm)
    else if inFm then keepToggle rest inFm
    else l :: keepToggle rest inFm

/-- The stripped qualifying lines of a note, in order. -/
def qualifyingLines (lines : List (List Char)) : List (List Char) :=
  ((keepToggle lines false).filter isSummaryLine).map pyStrip

/-- Accumulate lines until the space-joined text first exceeds 200
characters (including the line that crosses the budget). -/
def accumTill : List (List Char) → List (List Char) → List (List Char)
  | acc, [] => acc
  | acc, l :: rest =>
    if 200 < (joinSpace (acc ++ [l])).length then acc ++ [l]
    else accumTill (acc ++ [l]) rest

/-- C3's counterexample vault: one note that references only itself. -/
def selfNote : RawNote :=
  { pathStr := ("/vaults/iris/A.md".toList), stem := ("A".toList),
    relPath := ("A.md".toList), content := ("[[A]]".toList) }

/-- C4's counterexample vault: one note with a dangling reference. -/
def danglingNote : RawNote :=
  { pathStr := ("/vaults/iris/A.md".toList), stem := ("A".toList),
    relPath := ("A.md".toList), content := ("x [[B]] y".toList) }

/-- C10's witness source note: two references to the same target. -/
def doubleLinkNote : RawNote :=
  { pathStr := ("/vaults/samuel/S.md".toList), stem := ("S".toList),
    relPath := ("S.md".toList), content := ("[[B]] and [[b]] twice".toList) }

/-- A concrete indexed record used to instantiate the search theorems. -/
def fooNote : NoteRecord :=
  { name := ("Foo".toList), path := ("Foo.md".toList), vault := ("iris".toList),
    date := none, categories := [("uncategorized".toList)], tags := [],
    links := [], link_count := 0, headings := [], frontmatter := [],
    summary := ("about foo".toList), word_count := 2, char_count := 9 }

/-- The graph record produced for `danglingNote`'s vault. -/
def gC4 : GraphResult :=
  { name := ("A".toList), vault := ("iris".toList),
    outgoing_links := [("B".toList)], incoming_links := [],
    total_connections := 1 }

/-! Theorems.  Each claim of the specification is settled below; shared
helper lemmas come first. -/

theorem isPrefixOf_self (l : List Char) : l.isPrefixOf l = true := by
  induction l with
  | nil => rfl
  | cons c cs ih => simp [List.isPrefixOf, ih]

theorem strContains_self (l : List Char) : strContains l l = true := by
  unfold strContains
  simp [isPrefixOf_self]

/-- C8: rebuilding from the same filesystem state is deterministic: two
builds differ at most in the `built_at` timestamp — the note-record
sequences and the aggregate stats are identical, and the whole index equals
the other build with only its timestamp replaced. -/
theorem C8_rebuild_deterministic (vaultArg : Option (List Char))
    (samuel iris : List RawNote) (t1 t2 : List Char) :
    (build_index vaultArg samuel iris t1).notes = (build_index vaultArg samuel iris t2).notes
    ∧ (build_index vaultArg samuel iris t1).stats = (build_index vaultArg samuel iris t2).stats
    ∧ build_index vaultArg samuel iris t1
        = { build_index vaultArg samuel iris t2 with built_at := t1 } :=
  ⟨rfl, rfl, rfl⟩

/-- C7 counterexample: with the snapshot file absent, the `stats` command
returns the structured "index not built" error value — it neither rebuilds
nor answers with the stats a transparent rebuild would produce — and with a
present-but-unparsable snapshot the `search` command raises from
`json.loads` instead of rebuilding. -/
theorem C7_counterexample :
    stats_op Snapshot.absent = StatsOutcome.errorValue
    ∧ stats_op Snapshot.absent ≠ StatsOutcome.answered (build_index none [] [] []).stats
    ∧ search_op Snapshot.unparsable [] [] [] [] none none none none 30 = Except.error () := by
  refine ⟨rfl, by decide, rfl⟩

/-- C7 amended: `search`, `batch` and `categories` transparently rebuild and
answer when the snapshot is absent and answer from the decoded snapshot when
it parses, but an existing snapshot that fails to parse makes all four
operations raise; `stats` never rebuilds — it answers from a parsable
snapshot, returns a structured error value when the snapshot is absent, and
raises when the snapshot is unparsable. -/
theorem C7_amended (samuel iris : List RawNote) (now : List Char)
    (query : List Char) (vaultF category date_from date_to : Option (List Char))
    (limit offset blimit : Nat) (bcat bvault : Option (List Char)) (idx : BuiltIndex) :
    search_op Snapshot.absent samuel iris now query vaultF category date_from date_to limit
      = Except.ok (search_index query vaultF category date_from date_to limit
          (build_index none samuel iris now).notes)
    ∧ search_op (Snapshot.parsed idx) samuel iris now query vaultF category date_from date_to limit
      = Except.ok (search_index query vaultF category date_from date_to limit idx.notes)
    ∧ search_op Snapshot.unparsable samuel iris now query vaultF category date_from date_to limit
      = Except.error ()
    ∧ batch_op Snapshot.absent samuel iris now offset blimit bcat bvault
      = Except.ok (get_batch offset blimit bcat bvault (build_index none samuel iris now).notes)
    ∧ batch_op (Snapshot.parsed idx) samuel iris now offset blimit bcat bvault
      = Except.ok (get_batch offset blimit bcat bvault idx.notes)
    ∧ batch_op Snapshot.unparsable samuel iris now offset blimit bcat bvault = Except.error ()
    ∧ categories_op Snapshot.absent samuel iris now
      = Except.ok (build_index none samuel iris now).stats.categories
    ∧ categories_op (Snapshot.parsed idx) samuel iris now = Except.ok idx.stats.categories
    ∧ categories_op Snapshot.unparsable samuel iris now = Except.error ()
    ∧ stats_op (Snapshot.parsed idx) = StatsOutcome.answered idx.stats
    ∧ stats_op Snapshot.absent = StatsOutcome.errorValue
    ∧ stats_op Snapshot.unparsable = StatsOutcome.raised :=
  ⟨rfl, rfl, rfl, rfl, rfl, rfl, rfl, rfl, rfl, rfl, rfl, rfl⟩

/-- C9 counterexample: on the note `a` newline `b`, the indexed summary is
`a b` — the summary accumulates beyond the first qualifying line, so it does
not equal the first non-empty non-heading non-fence line truncated to the
300-character budget, which would be `a`. -/
theorem C9_counterexample :
    noteSummary ("a\nb".toList) = ("a b".toList)
    ∧ noteSummary ("a\nb".toList) ≠ (("a".toList).take 300) := by
  refine ⟨by decide, by decide⟩

theorem summaryGo_spec (lines : List (List Char)) :
    ∀ (acc : List (List Char)) (fm : Bool),
      summaryGo lines acc fm
        = accumTill acc (((keepToggle lines fm).filter isSummaryLine).map pyStrip) := by
  induction lines with
  | nil => intro acc fm; rfl
  | cons l rest ih =>
    intro acc fm
    by_cases h1 : pyStrip l = ['-', '-', '-']
    · simp [summaryGo, keepToggle, h1, ih]
    · cases h2 : fm with
      | true => simp [summaryGo, keepToggle, h1, ih]
      | false =>
        cases h3 : isSummaryLine l with
        | false => simp [summaryGo, keepToggle, h1, h3, ih]
        | true =>
          by_cases h4 : 200 < (joinSpace (acc ++ [pyStrip l])).length
          · simp [summaryGo, keepToggle, h1, h3, h4, accumTill]
          · simp [summaryGo, keepToggle, h1, h3, h4, accumTill, ih]

/-- C9 amended: the indexed summary equals the stripped qualifying lines of
the note — the non-blank lines outside the dash-toggled metadata regions
that start with neither a hash nor a code fence — space-joined, accumulated
only until the joined text first exceeds 200 characters, and truncated to
300 characters. -/
theorem C9_amended (content : List Char) :
    noteSummary content
      = (joinSpace (accumTill [] (qualifyingLines (splitLines content)))).take 300 := by
  rw [noteSummary, qualifyingLines, summaryGo_spec]

/-- C1: for a non-empty query, `search_index`'s score is exactly the sum of
the five indicators — twenty for a case-insensitive exact name match, ten
for a name substring match, five for a summary substring match, three for a
tag substring match, four for a heading-text substring match — and a note
whose total score is zero never appears in the returned results: every
returned entry carries its note's score, which is nonzero. -/
theorem C1_scoring (q : List Char) (hq : q ≠ []) (n : NoteRecord)
    (vaultF category date_from date_to : Option (List Char)) (limit : Nat)
    (notes : List NoteRecord) :
    noteScore (pyLower q) n
      = (if pyLower n.name = pyLower q then 20 else 0)
        + (if strContains (pyLower n.name) (pyLower q) = true then 10 else 0)
        + (if strContains (pyLower n.summary) (pyLower q) = true then 5 else 0)
        + (if n.tags.any (fun t => strContains (pyLower t) (pyLower q)) = true then 3 else 0)
        + (if n.headings.any (fun h => strContains (pyLower h.text) (pyLower q)) = true then 4 else 0)
    ∧ (∀ p ∈ search_index q vaultF category date_from date_to limit notes,
         p.2 = noteScore (pyLower q) p.1 ∧ p.2 ≠ 0) := by
  have hqe : (pyLower q).isEmpty = false := by
    cases q with
    | nil => exact absurd rfl hq
    | cons c cs => rfl
  constructor
  · rw [noteScore, hqe]
    by_cases hsub : strContains (pyLower n.name) (pyLower q) = true
    · by_cases heq : pyLower n.name = pyLower q
      · simp only [Bool.false_eq_true, if_false, heq, beq_self_eq_true, strContains_self,
          if_true]
      · have hbeq : (pyLower n.name == pyLower q) = false := by
          simp [heq]
        simp only [Bool.false_eq_true, if_false, hsub, if_true, hbeq, heq]
    · have heq : ¬pyLower n.name = pyLower q := by
        intro h
        rw [h] at hsub
        exact hsub (strContains_self _)
      simp only [Bool.false_eq_true, if_false, hsub, heq]
  · intro p hp
    have hp1 : p ∈ List.insertionSort scoreGe
        (searchCandidates q vaultF category date_from date_to notes) :=
      List.mem_of_mem_take hp
    have hp2 : p ∈ searchCandidates q vaultF category date_from date_to notes :=
      (List.mem_insertionSort scoreGe).mp hp1
    rcases List.mem_filterMap.mp hp2 with ⟨n', hn', he⟩
    dsimp only at he
    by_cases hf : passesFilters vaultF category date_from date_to n' = true
    · rw [if_pos hf, hqe] at he
      simp only [Bool.not_false, Bool.true_and] at he
      by_cases hz : (noteScore (pyLower q) n' == 0) = true
      · rw [if_pos hz] at he
        cases he
      · rw [if_neg hz] at he
        have hpe : (n', noteScore (pyLower q) n') = p := Option.some.inj he
        rw [← hpe]
        exact ⟨rfl, by simpa using hz⟩
    · rw [if_neg hf] at he
      cases he

/-- C1 witness: the score formula instantiated at the query `foo` and a note
named `Foo` whose summary mentions `foo`: ten for the name substring, twenty
more for the exact name match, five for the summary. -/
theorem C1_scoring_witness :
    noteScore (pyLower ("foo".toList)) fooNote
      = (if pyLower fooNote.name = pyLower ("foo".toList) then 20 else 0)
        + (if strContains (pyLower fooNote.name) (pyLower ("foo".toList)) = true then 10 else 0)
        + (if strContains (pyLower fooNote.summary) (pyLower ("foo".toList)) = true then 5 else 0)
        + (if fooNote.tags.any (fun t => strContains (pyLower t) (pyLower ("foo".toList))) = true then 3 else 0)
        + (if fooNote.headings.any (fun h => strContains (pyLower h.text) (pyLower ("foo".toList))) = true then 4 else 0) :=
  (C1_scoring ("foo".toList) (by decide) fooNote none none none none 30 []).1

/-- C5: a note whose derived date is absent is never excluded by the
date-range filter: the filter block gives the same verdict as with no date
bounds at all, and such a note that passes the remaining filters with a
nonzero score is among the returned results whenever the result list is not
cut by the limit. -/
theorem C5_dateless_note_immune (vaultF category date_from date_to : Option (List Char))
    (q : List Char) (limit : Nat) (notes : List NoteRecord) (n : NoteRecord)
    (hd : n.date = none)
    (hmem : n ∈ notes)
    (hpass : passesFilters vaultF category none none n = true)
    (hscore : (pyLower q).isEmpty = false → noteScore (pyLower q) n ≠ 0)
    (hlim : (searchCandidates q vaultF category date_from date_to notes).length ≤ limit) :
    passesFilters vaultF category date_from date_to n = true
    ∧ (n, noteScore (pyLower q) n)
        ∈ search_index q vaultF category date_from date_to limit notes := by
  have hfd : passesFilters vaultF category date_from date_to n
      = passesFilters vaultF category none none n := by
    cases date_from <;> cases date_to <;> simp [passesFilters, hd]
  have hpass' : passesFilters vaultF category date_from date_to n = true := by
    rw [hfd]
    exact hpass
  refine ⟨hpass', ?_⟩
  have hmemC : (n, noteScore (pyLower q) n)
      ∈ searchCandidates q vaultF category date_from date_to notes := by
    apply List.mem_filterMap.mpr
    refine ⟨n, hmem, ?_⟩
    dsimp only
    rw [if_pos hpass']
    cases hqe : (pyLower q).isEmpty with
    | true => simp [hqe]
    | false =>
      have hnz := hscore hqe
      simp [hqe, hnz]
  rw [search_index, List.take_of_length_le]
  · exact (List.mem_insertionSort scoreGe).mpr hmemC
  · rw [List.length_insertionSort]
    exact hlim

/-- C5 witness: with both date bounds set, the dateless note `Foo` passes
the filters and is returned with its score of 35. -/
theorem C5_dateless_note_immune_witness :
    passesFilters none none (some ("2024-01-01".toList)) (some ("2024-12-31".toList)) fooNote = true
    ∧ (fooNote, noteScore (pyLower ("foo".toList)) fooNote)
        ∈ search_index ("foo".toList) none none (some ("2024-01-01".toList))
            (some ("2024-12-31".toList)) 30 [fooNote] :=
  C5_dateless_note_immune none none (some ("2024-01-01".toList)) (some ("2024-12-31".toList))
    ("foo".toList) 30 [fooNote] fooNote rfl (by decide) (by decide)
    (fun _ => by decide) (by decide)

theorem searchCandidates_empty_mem (vaultF category date_from date_to : Option (List Char))
    (notes : List NoteRecord) (p : NoteRecord × Nat) :
    p ∈ searchCandidates [] vaultF category date_from date_to notes ↔
      (p.1 ∈ notes ∧ passesFilters vaultF category date_from date_to p.1 = true
        ∧ p.2 = p.1.word_count) := by
  constructor
  · intro hp
    rcases List.mem_filterMap.mp hp with ⟨n, hn, he⟩
    dsimp only at he
    by_cases hf : passesFilters vaultF category date_from date_to n = true
    · rw [if_pos hf] at he
      simp only [pyLower, List.map_nil, List.isEmpty_nil, Bool.not_true, Bool.false_and,
        Bool.false_eq_true, if_false] at he
      have hpe : (n, noteScore (List.map Char.toLower []) n) = p := Option.some.inj he
      rw [← hpe]
      exact ⟨hn, hf, rfl⟩
    · rw [if_neg hf] at he
      cases he
  · rintro ⟨h1, h2, h3⟩
    apply List.mem_filterMap.mpr
    refine ⟨p.1, h1, ?_⟩
    dsimp only
    rw [if_pos h2]
    simp only [pyLower, List.map_nil, List.isEmpty_nil, Bool.not_true, Bool.false_and,
      Bool.false_eq_true, if_false]
    have hs : noteScore [] p.1 = p.2 := by
      rw [h3]
      rfl
    rw [hs, Prod.mk.eta]

/-- C6: with an empty query every passing note is scored by its word count,
and the result is exactly the limit-many heaviest passing notes in
descending word-count order: the result length is the limit capped by the
number of passing notes, the scores descend, each returned score is the
note's word count, no excluded passing note outscores a returned one, and
the passing notes are exactly the filtered notes. -/
theorem C6_empty_query_top_k (vaultF category date_from date_to : Option (List Char))
    (k : Nat) (notes : List NoteRecord) :
    (search_index [] vaultF category date_from date_to k notes).length
        = min k (searchCandidates [] vaultF category date_from date_to notes).length
    ∧ List.Pairwise scoreGe (search_index [] vaultF category date_from date_to k notes)
    ∧ (∀ p ∈ search_index [] vaultF category date_from date_to k notes,
         p.2 = p.1.word_count)
    ∧ (∀ p ∈ search_index [] vaultF category date_from date_to k notes,
        ∀ r ∈ searchCandidates [] vaultF category date_from date_to notes,
          r ∉ search_index [] vaultF category date_from date_to k notes → r.2 ≤ p.2)
    ∧ (∀ p : NoteRecord × Nat,
        p ∈ searchCandidates [] vaultF category date_from date_to notes ↔
          (p.1 ∈ notes ∧ passesFilters vaultF category date_from date_to p.1 = true
            ∧ p.2 = p.1.word_count)) := by
  refine ⟨?_, ?_, ?_, ?_, searchCandidates_empty_mem vaultF category date_from date_to notes⟩
  · rw [search_index, List.length_take, List.length_insertionSort]
  · exact ((List.sorted_insertionSort scoreGe
      (searchCandidates [] vaultF category date_from date_to notes)).sublist
        (List.take_sublist k _))
  · intro p hp
    have hp2 : p ∈ searchCandidates [] vaultF category date_from date_to notes :=
      (List.mem_insertionSort scoreGe).mp (List.mem_of_mem_take hp)
    exact ((searchCandidates_empty_mem vaultF category date_from date_to notes p).mp hp2).2.2
  · intro p hp r hr hrn
    have hrL : r ∈ List.insertionSort scoreGe
        (searchCandidates [] vaultF category date_from date_to notes) :=
      (List.mem_insertionSort scoreGe).mpr hr
    rw [← List.take_append_drop k (List.insertionSort scoreGe
      (searchCandidates [] vaultF category date_from date_to notes))] at hrL
    have hrd : r ∈ (List.insertionSort scoreGe
        (searchCandidates [] vaultF category date_from date_to notes)).drop k := by
      rcases List.mem_append.mp hrL with h | h
      · exact absurd h hrn
      · exact h
    have hsorted := List.sorted_insertionSort scoreGe
      (searchCandidates [] vaultF category date_from date_to notes)
    rw [← List.take_append_drop k (List.insertionSort scoreGe
      (searchCandidates [] vaultF category date_from date_to notes))] at hsorted
    have hcross := (List.pairwise_append.mp hsorted).2.2
    exact hcross p hp r hrd

theorem scanBacklinks_pairs_sublist (v t : List Char) (ns : List RawNote) :
    List.Sublist ((scanBacklinks v ns t).map (fun e => (e.vault, e.name)))
      (ns.map (fun p => (v, p.stem))) := by
  induction ns with
  | nil => simp [scanBacklinks]
  | cons p rest ih =>
    by_cases hc : ((extract_links p.content).any (fun l => pyLower l == t)) = true
    · simp only [scanBacklinks, List.filterMap_cons, hc, if_true, List.map_cons]
      exact List.Sublist.cons₂ _ ih
    · simp only [scanBacklinks, List.filterMap_cons, hc, Bool.false_eq_true, if_false,
        List.map_cons]
      exact List.Sublist.cons _ ih

/-- C10: the backlink list names each source note at most once, even when
that source's content references the target several times: whenever each
vault lists pairwise-distinct note stems (one file per name), the
vault-and-name pairs of `get_backlinks`' result are pairwise distinct. -/
theorem C10_backlinks_unique (target : List Char) (vaultF : Option (List Char))
    (samuel iris : List RawNote)
    (hs : (samuel.map (fun p => p.stem)).Nodup)
    (hi : (iris.map (fun p => p.stem)).Nodup) :
    ((get_backlinks target vaultF samuel iris).map (fun e => (e.vault, e.name))).Nodup := by
  have hS : ∀ (ns : List RawNote), (ns.map (fun p => p.stem)).Nodup → ∀ v : List Char,
      ((scanBacklinks v ns (pyLower target)).map (fun e => (e.vault, e.name))).Nodup := by
    intro ns hn v
    have hmm : (ns.map (fun p => ((v, p.stem) : List Char × List Char))).Nodup := by
      have hrw : ns.map (fun p => ((v, p.stem) : List Char × List Char))
          = (ns.map (fun p => p.stem)).map (fun s => (v, s)) := by
        rw [List.map_map]
        rfl
      rw [hrw]
      refine hn.map ?_
      intro a b hab
      exact congrArg Prod.snd hab
    exact hmm.sublist (scanBacklinks_pairs_sublist v (pyLower target) ns)
  have hfst : ∀ (v t : List Char) (ns : List RawNote) (a : List Char × List Char),
      a ∈ (scanBacklinks v ns t).map (fun e => (e.vault, e.name)) → a.1 = v := by
    intro v t ns a ha
    have hmem := (scanBacklinks_pairs_sublist v t ns).subset ha
    rcases List.mem_map.mp hmem with ⟨p, _, hp⟩
    rw [← hp]
  rw [get_backlinks]
  cases hc1 : (vaultF == some ("samuel".toList) || vaultF == none) with
  | false =>
    cases hc2 : (vaultF == some ("iris".toList) || vaultF == none) with
    | false => simp [hc1, hc2]
    | true =>
      simp only [hc1, hc2, Bool.false_eq_true, if_false, if_true, List.nil_append]
      exact hS iris hi _
  | true =>
    cases hc2 : (vaultF == some ("iris".toList) || vaultF == none) with
    | false =>
      simp only [hc1, hc2, Bool.false_eq_true, if_false, if_true, List.append_nil]
      exact hS samuel hs _
    | true =>
      simp only [hc1, hc2, if_true, List.map_append]
      refine List.Nodup.append (hS samuel hs _) (hS iris hi _) ?_
      intro a haS haI
      have h1 := hfst _ _ _ _ haS
      have h2 := hfst _ _ _ _ haI
      rw [h1] at h2
      exact absurd h2 (by decide)

/-- C10 witness: a source note referencing `B` twice (as `B` and `b`)
appears exactly once in the backlink list. -/
theorem C10_backlinks_unique_witness :
    ((get_backlinks ("B".toList) none [doubleLinkNote] []).map
        (fun e => (e.vault, e.name))).Nodup :=
  C10_backlinks_unique ("B".toList) none [doubleLinkNote] [] (by decide) (by decide)

/-- C3 counterexample: the vault consisting of the single note `A`, whose
only reference is `[[A]]` (itself).  No OTHER note references `A`, and `A`
is not the entry point, so the claim requires `A` among the orphans; but the
self-reference puts `a` in the linked set and `find_orphans` returns the
empty list. -/
theorem C3_counterexample :
    extract_links selfNote.content = [("A".toList)]
    ∧ selfNote.stem = ("A".toList)
    ∧ pyLower selfNote.stem ≠ ("index".toList)
    ∧ find_orphans [selfNote] = [] := by
  decide

theorem upsert_fresh {β : Type} (d : List (List Char × β)) (k : List Char) (v : β)
    (h : ∀ kv ∈ d, kv.1 ≠ k) : upsert d k v = d ++ [(k, v)] := by
  induction d with
  | nil => rfl
  | cons kv rest ih =>
    have hne : (kv.1 == k) = false := by
      simp only [beq_eq_false_iff_ne, ne_eq]
      exact h kv (List.mem_cons_self kv rest)
    cases kv with
    | mk k' v' =>
      simp only [upsert, hne, Bool.false_eq_true, if_false, List.cons_append,
        List.cons.injEq, true_and]
      exact ih (fun kv2 hkv2 => h kv2 (List.mem_cons_of_mem _ hkv2))

theorem foldl_upsert_map (V : List RawNote) :
    ∀ (acc : List (List Char × List Char)),
      (∀ p ∈ V, ∀ kv ∈ acc, kv.1 ≠ pyLower p.stem) →
      (V.map (fun p => pyLower p.stem)).Nodup →
      V.foldl (fun d p => upsert d (pyLower p.stem) p.stem) acc
        = acc ++ V.map (fun p => (pyLower p.stem, p.stem)) := by
  induction V with
  | nil =>
    intro acc _ _
    simp
  | cons p rest ih =>
    intro acc hacc hnd
    rw [List.foldl_cons,
      upsert_fresh acc (pyLower p.stem) p.stem
        (fun kv hkv => hacc p (List.mem_cons_self p rest) kv hkv)]
    have hndc : pyLower p.stem ∉ rest.map (fun q => pyLower q.stem)
        ∧ (rest.map (fun q => pyLower q.stem)).Nodup := by
      rw [List.map_cons] at hnd
      exact List.nodup_cons.mp hnd
    rw [ih (acc ++ [(pyLower p.stem, p.stem)]) ?_ hndc.2]
    · simp
    · intro q hq kv hkv
      rcases List.mem_append.mp hkv with hin | hin
      · exact hacc q (List.mem_cons_of_mem _ hq) kv hin
      · have hkve : kv = (pyLower p.stem, p.stem) := by simpa using hin
        rw [hkve]
        intro hbad
        have hbad2 : pyLower p.stem = pyLower q.stem := hbad
        exact hndc.1 (hbad2 ▸ List.mem_map_of_mem _ hq)

theorem mem_linked_iff (V : List RawNote) (x : List Char) :
    x ∈ (V.map (fun p => (extract_links p.content).map pyLower)).flatten ↔
      ∃ q ∈ V, ∃ l ∈ extract_links q.content, pyLower l = x := by
  rw [List.mem_flatten]
  constructor
  · rintro ⟨L, hL, hx⟩
    rcases List.mem_map.mp hL with ⟨q, hq, rfl⟩
    rcases List.mem_map.mp hx with ⟨l, hl, hlx⟩
    exact ⟨q, hq, l, hl, hlx⟩
  · rintro ⟨q, hq, l, hl, hlx⟩
    exact ⟨(extract_links q.content).map pyLower, List.mem_map_of_mem _ hq,
      hlx ▸ List.mem_map_of_mem _ hl⟩

/-- C3 amended: over a vault with pairwise-distinct lowercased note stems,
`find_orphans` reports exactly the notes whose lowered stem never occurs
among the lowered targets of ANY note's references — the scanned notes
include the candidate itself, so a self-referencing note is not an orphan —
excluding the entry-point note named `Index` (case-insensitively). -/
theorem C3_amended (V : List RawNote) (hnd : (V.map (fun p => pyLower p.stem)).Nodup)
    (nm : List Char) :
    (∃ o ∈ find_orphans V, o.name = nm) ↔
      ((∃ p ∈ V, p.stem = nm)
       ∧ (∀ q ∈ V, ∀ l ∈ extract_links q.content, pyLower l ≠ pyLower nm)
       ∧ pyLower nm ≠ ("index".toList)) := by
  simp only [find_orphans]
  rw [foldl_upsert_map V [] (fun p _ kv hkv => absurd hkv (List.not_mem_nil kv)) hnd,
    List.nil_append]
  constructor
  · rintro ⟨o, ho, hon⟩
    rcases List.mem_filterMap.mp ho with ⟨kv, hkv, he⟩
    rcases List.mem_map.mp hkv with ⟨p, hp, hpe⟩
    by_cases hc : (!(((V.map (fun p => (extract_links p.content).map pyLower)).flatten).contains kv.1)
        && !(kv.1 == ("index".toList))) = true
    · rw [if_pos hc] at he
      have hoe := Option.some.inj he
      rcases Bool.and_eq_true_iff.mp hc with ⟨hc1, hc2⟩
      have hkv1 : kv.1 = pyLower p.stem := by rw [← hpe]
      have hkv2 : kv.2 = p.stem := by rw [← hpe]
      have hname : p.stem = nm := by
        rw [← hon, ← hoe, hkv2]
      have hlow : pyLower nm = kv.1 := by
        rw [hkv1, hname]
      refine ⟨⟨p, hp, hname⟩, ?_, ?_⟩
      · intro q hq l hl hlx
        have hmem : kv.1 ∈ (V.map (fun p => (extract_links p.content).map pyLower)).flatten :=
          (mem_linked_iff V kv.1).mpr ⟨q, hq, l, hl, by rw [hlx, hlow]⟩
        have hcontains : ((V.map
            (fun p => (extract_links p.content).map pyLower)).flatten.contains kv.1) = true :=
          List.elem_iff.mpr hmem
        rw [hcontains] at hc1
        simp at hc1
      · rw [hlow]
        intro hbad
        rw [hbad] at hc2
        simp at hc2
    · rw [if_neg hc] at he
      cases he
  · rintro ⟨⟨p, hp, hpnm⟩, hnoref, hnidx⟩
    refine ⟨⟨p.stem, ("iris".toList)⟩, ?_, hpnm⟩
    apply List.mem_filterMap.mpr
    refine ⟨(pyLower p.stem, p.stem), List.mem_map_of_mem _ hp, ?_⟩
    have hc1 : (((V.map (fun p => (extract_links p.content).map pyLower)).flatten).contains
        (pyLower p.stem)) = false := by
      cases hcon : (((V.map (fun p => (extract_links p.content).map pyLower)).flatten).contains
          (pyLower p.stem)) with
      | false => rfl
      | true =>
        rcases (mem_linked_iff V (pyLower p.stem)).mp ((List.elem_iff).mp hcon)
          with ⟨q, hq, l, hl, hlx⟩
        exact absurd (hlx.trans (by rw [hpnm])) (hnoref q hq l hl)
    have hc2 : ((pyLower p.stem) == ("index".toList)) = false := by
      simp only [beq_eq_false_iff_ne, ne_eq]
      rw [hpnm]
      exact hnidx
    rw [hc1, hc2]
    rfl

/-- C3 witness: in a vault whose single note `A` links only to the
nonexistent `B`, the amended characterisation reports `A` as an orphan. -/
theorem C3_amended_witness :
    ∃ o ∈ find_orphans [danglingNote], o.name = ("A".toList) :=
  (C3_amended [danglingNote] (by decide) ("A".toList)).mpr
    ⟨⟨danglingNote, by decide, by decide⟩, by decide, by decide⟩

/-- C4 counterexample: the vaults contain exactly one note, `A`, whose only
reference target `B` exists nowhere, yet `get_graph` lists `B` among the
outgoing links — broken references are not excluded from the outgoing
list. -/
theorem C4_counterexample :
    get_graph ("A".toList) [] [danglingNote] = some gC4
    ∧ ("B".toList) ∈ gC4.outgoing_links
    ∧ danglingNote.stem ≠ ("B".toList) := by
  decide

theorem mem_scanBacklinks_names (v tl : List Char) (ns : List RawNote) (s : List Char) :
    s ∈ (scanBacklinks v ns tl).map (fun b => b.name) ↔
      ∃ p ∈ ns, p.stem = s ∧ ∃ l ∈ extract_links p.content, pyLower l = tl := by
  constructor
  · intro h
    rcases List.mem_map.mp h with ⟨e, he, hen⟩
    rcases List.mem_filterMap.mp he with ⟨p, hp, hpe⟩
    by_cases hc : ((extract_links p.content).any (fun l => pyLower l == tl)) = true
    · rw [if_pos hc] at hpe
      rcases List.any_eq_true.mp hc with ⟨l, hl, hlb⟩
      have he2 := Option.some.inj hpe
      refine ⟨p, hp, ?_, l, hl, by simpa using hlb⟩
      rw [← hen, ← he2]
    · rw [if_neg hc] at hpe
      cases hpe
  · rintro ⟨p, hp, hst, l, hl, hlt⟩
    apply List.mem_map.mpr
    refine ⟨⟨p.stem, p.relPath, v⟩, ?_, hst⟩
    apply List.mem_filterMap.mpr
    refine ⟨p, hp, ?_⟩
    rw [if_pos (List.any_eq_true.mpr ⟨l, hl, by simpa using hlt⟩)]

theorem mem_backlinks_names (nm : List Char) (samuel iris : List RawNote) (s : List Char) :
    s ∈ (get_backlinks nm none samuel iris).map (fun b => b.name) ↔
      ((∃ p ∈ samuel, p.stem = s ∧ ∃ l ∈ extract_links p.content, pyLower l = pyLower nm)
       ∨ (∃ p ∈ iris, p.stem = s ∧ ∃ l ∈ extract_links p.content, pyLower l = pyLower nm)) := by
  rw [get_backlinks]
  have hc1 : (((none : Option (List Char)) == some ("samuel".toList))
      || ((none : Option (List Char)) == none)) = true := rfl
  have hc2 : (((none : Option (List Char)) == some ("iris".toList))
      || ((none : Option (List Char)) == none)) = true := rfl
  rw [hc1, hc2, if_pos rfl, if_pos rfl, List.map_append, List.mem_append,
    mem_scanBacklinks_names, mem_scanBacklinks_names]

/-- C4 amended: for every existing note, `get_graph` returns the note's raw
outgoing reference list — the targets as written, broken ones included — an
incoming list equal to the backlink source names (a source appears exactly
when one of its references matches the queried name case-insensitively),
and `total_connections` equal to the length of the outgoing list plus the
length of the incoming list. -/
theorem C4_amended (nm : List Char) (samuel iris : List RawNote) (g : GraphResult)
    (hg : get_graph nm samuel iris = some g) :
    (∃ v p, find_note nm iris samuel = some (v, p)
       ∧ g.name = p.stem ∧ g.vault = v
       ∧ g.outgoing_links = extract_links p.content)
    ∧ g.incoming_links = (get_backlinks nm none samuel iris).map (fun b => b.name)
    ∧ g.total_connections = g.outgoing_links.length + g.incoming_links.length
    ∧ (∀ s : List Char, s ∈ g.incoming_links ↔
        ((∃ p ∈ samuel, p.stem = s ∧ ∃ l ∈ extract_links p.content, pyLower l = pyLower nm)
         ∨ (∃ p ∈ iris, p.stem = s ∧ ∃ l ∈ extract_links p.content, pyLower l = pyLower nm))) := by
  rw [get_graph] at hg
  cases hf : find_note nm iris samuel with
  | none =>
    rw [hf] at hg
    cases hg
  | some vp =>
    cases vp with
    | mk v p =>
      rw [hf] at hg
      have hge := Option.some.inj hg
      rw [← hge]
      refine ⟨⟨v, p, rfl, rfl, rfl, rfl⟩, rfl, ?_, ?_⟩
      · simp only [List.length_map]
      · intro s
        exact mem_backlinks_names nm samuel iris s

/-- C4 witness: at the dangling-reference vault, the total connection count
is the sum of the outgoing and incoming list lengths. -/
theorem C4_amended_witness :
    gC4.total_connections = gC4.outgoing_links.length + gC4.incoming_links.length :=
  (C4_amended ("A".toList) [] [danglingNote] gC4 (by decide)).2.2.1

/-- C2 counterexample: on a note whose only heading is the level-one line
`# S`, appending `X` under section `S` does not insert after that heading —
`section_pattern` requires at least two marker characters, so the code
appends a duplicate level-two `## S` heading at the end; the claim's
predicted result, insertion at document end under the existing `# S`
heading with no new heading line, differs. -/
theorem C2_counterexample :
    append_to_note ("# S\nold".toList) ("X".toList) (some ("S".toList))
        = ("# S\nold\n\n## S\n\nX\n".toList)
    ∧ append_to_note ("# S\nold".toList) ("X".toList) (some ("S".toList))
        ≠ ("# S\nold\n\nX\n".toList)
    ∧ secLineB ("S".toList) ("# S".toList) = false := by
  refine ⟨by decide, by decide, by decide⟩

theorem lineOf_no_nl (l : List Char) (h : ('\n' : Char) ∉ l) : lineOf l = l := by
  apply List.takeWhile_eq_self_iff.mpr
  intro a ha
  simp only [Bool.not_eq_true']
  simp only [beq_eq_false_iff_ne, ne_eq]
  intro hb
  exact h (hb ▸ ha)

theorem lineOf_append (l t : List Char) (h : ('\n' : Char) ∉ l) :
    lineOf (l ++ '\n' :: t) = l := by
  rw [lineOf, List.takeWhile_append_of_pos]
  · rw [List.takeWhile_cons]
    simp
  · intro a ha
    simp only [Bool.not_eq_true']
    simp only [beq_eq_false_iff_ne, ne_eq]
    intro hb
    exact h (hb ▸ ha)

theorem joinLines_cons (l : List Char) (ls : List (List Char)) (h : ls ≠ []) :
    joinLines (l :: ls) = l ++ '\n' :: joinLines ls := by
  cases ls with
  | nil => exact absurd rfl h
  | cons a as => rfl

theorem joinLines_split (ls : List (List Char)) :
    ∀ j, 0 < j → j < ls.length →
      joinLines ls = joinLines (ls.take j) ++ '\n' :: joinLines (ls.drop j) := by
  induction ls with
  | nil =>
    intro j _ hj
    exact absurd hj (by simp)
  | cons l rest ih =>
    intro j hj0 hjlen
    have hrest : rest ≠ [] := by
      intro hre
      rw [hre] at hjlen
      simp at hjlen
      omega
    cases j with
    | zero => omega
    | succ j' =>
      cases Nat.eq_zero_or_pos j' with
      | inl hz =>
        rw [hz]
        simp only [List.take_succ_cons, List.take_zero, List.drop_succ_cons, List.drop_zero]
        exact joinLines_cons l rest hrest
      | inr hpos =>
        have hj'len : j' < rest.length := by
          simp at hjlen
          omega
        have htk : rest.take j' ≠ [] := by
          intro hre2
          rcases List.take_eq_nil_iff.mp hre2 with h1 | h1 <;> simp_all
        rw [joinLines_cons l rest hrest, List.take_succ_cons, List.drop_succ_cons,
          joinLines_cons l (rest.take j') htk, ih j' hpos hj'len]
        simp [List.append_assoc]

theorem takeWhile_hash_append_eq (m t : List Char) :
    (m ++ '\n' :: t).takeWhile (· == '#') = m.takeWhile (· == '#') := by
  induction m with
  | nil => simp [List.takeWhile_cons]
  | cons c m' ih =>
    by_cases hc : (c == '#') = true
    · simp only [List.cons_append, List.takeWhile_cons, hc, if_true, ih]
    · simp only [List.cons_append, List.takeWhile_cons, hc, Bool.false_eq_true, if_false]

theorem dropWhile_hash_append_eq (m t : List Char) :
    (m ++ '\n' :: t).dropWhile (· == '#') = m.dropWhile (· == '#') ++ '\n' :: t := by
  induction m with
  | nil => simp [List.dropWhile_cons]
  | cons c m' ih =>
    by_cases hc : (c == '#') = true
    · simp only [List.cons_append, List.dropWhile_cons, hc, if_true, ih]
    · simp only [List.cons_append, List.dropWhile_cons, hc, Bool.false_eq_true, if_false]

theorem isPrefixOf_nl_boundary (p : List Char) :
    ∀ (d t : List Char), ('\n' : Char) ∉ p →
      p.isPrefixOf (d ++ '\n' :: t) = p.isPrefixOf d := by
  induction p with
  | nil =>
    intro d t _
    cases d <;> rfl
  | cons c p' ih =>
    intro d t hp
    have hc : (c == '\n') = false := by
      simp only [beq_eq_false_iff_ne, ne_eq]
      intro hb
      exact hp (hb ▸ List.mem_cons_self c p')
    cases d with
    | nil =>
      simp only [List.nil_append, List.isPrefixOf, hc, Bool.false_and]
    | cons a d' =>
      simp only [List.cons_append, List.isPrefixOf, List.append_eq]
      rw [ih d' t (fun hm => hp (List.mem_cons_of_mem _ hm))]

theorem secMatchLen_line_nil (sec l : List Char) (hl : ('\n' : Char) ∉ l) :
    secMatchLen sec l = (if secLineB sec l then some l.length else none) := by
  simp only [secMatchLen]
  by_cases hc : (decide (2 ≤ (l.takeWhile (· == '#')).length)
      && (' ' :: sec).isPrefixOf (l.dropWhile (· == '#'))) = true
  · have hc2 : secLineB sec l = true := hc
    rw [if_pos hc, if_pos hc2]
    have hpre : (' ' :: sec) <+: l.dropWhile (· == '#') :=
      List.isPrefixOf_iff_prefix.mp (Bool.and_eq_true_iff.mp hc).2
    have hlen1 : 1 + sec.length ≤ (l.dropWhile (· == '#')).length := by
      have := List.IsPrefix.length_le hpre
      simp only [List.length_cons] at this
      omega
    have hlen2 : (l.takeWhile (· == '#')).length + (l.dropWhile (· == '#')).length
        = l.length := by
      rw [← List.length_append, List.takeWhile_append_dropWhile]
    have hdrop : ((l.drop ((l.takeWhile (· == '#')).length + 1 + sec.length)).takeWhile
        (fun c => !(c == '\n')))
        = l.drop ((l.takeWhile (· == '#')).length + 1 + sec.length) := by
      apply List.takeWhile_eq_self_iff.mpr
      intro a ha
      have hal : a ∈ l := List.mem_of_mem_drop ha
      simp only [Bool.not_eq_true']
      simp only [beq_eq_false_iff_ne, ne_eq]
      intro hb
      exact hl (hb ▸ hal)
    rw [hdrop, List.length_drop]
    congr 1
    omega
  · have hc2 : secLineB sec l = false := Bool.eq_false_iff.mpr hc
    rw [if_neg hc, hc2]
    simp

theorem secMatchLen_line_cons (sec l t : List Char) (hs : ('\n' : Char) ∉ sec)
    (hl : ('\n' : Char) ∉ l) :
    secMatchLen sec (l ++ '\n' :: t) = (if secLineB sec l then some l.length else none) := by
  have hsp : ('\n' : Char) ∉ (' ' :: sec) := by
    intro hm
    rcases List.mem_cons.mp hm with h | h
    · exact absurd h (by decide)
    · exact hs h
  simp only [secMatchLen]
  rw [takeWhile_hash_append_eq, dropWhile_hash_append_eq,
    isPrefixOf_nl_boundary (' ' :: sec) (l.dropWhile (· == '#')) t hsp]
  by_cases hc : (decide (2 ≤ (l.takeWhile (· == '#')).length)
      && (' ' :: sec).isPrefixOf (l.dropWhile (· == '#'))) = true
  · have hc2 : secLineB sec l = true := hc
    rw [if_pos hc, if_pos hc2]
    have hpre : (' ' :: sec) <+: l.dropWhile (· == '#') :=
      List.isPrefixOf_iff_prefix.mp (Bool.and_eq_true_iff.mp hc).2
    have hlen1 : 1 + sec.length ≤ (l.dropWhile (· == '#')).length := by
      have := List.IsPrefix.length_le hpre
      simp only [List.length_cons] at this
      omega
    have hlen2 : (l.takeWhile (· == '#')).length + (l.dropWhile (· == '#')).length
        = l.length := by
      rw [← List.length_append, List.takeWhile_append_dropWhile]
    have hcons_le : (l.takeWhile (· == '#')).length + 1 + sec.length ≤ l.length := by
      omega
    rw [List.drop_append_of_le_length hcons_le]
    rw [List.takeWhile_append_of_pos ?hall]
    case hall =>
      intro a ha
      have hal : a ∈ l := List.mem_of_mem_drop ha
      simp only [Bool.not_eq_true']
      simp only [beq_eq_false_iff_ne, ne_eq]
      intro hb
      exact hl (hb ▸ hal)
    rw [List.takeWhile_cons]
    simp only [beq_self_eq_true, Bool.not_true, Bool.false_eq_true, if_false,
      List.append_nil, List.length_drop]
    congr 1
    omega
  · have hc2 : secLineB sec l = false := Bool.eq_false_iff.mpr hc
    rw [if_neg hc, hc2]
    simp

theorem sectionEndGo_none (sec : List Char) (hsnl : ('\n' : Char) ∉ sec)
    (ls : List (List Char)) :
    ∀ (fuel pos : Nat), (joinLines ls).length < fuel →
      (∀ l ∈ ls, ('\n' : Char) ∉ l) →
      (∀ l ∈ ls, secLineB sec l = false) →
      sectionEndGo sec fuel (joinLines ls) pos = none := by
  induction ls with
  | nil =>
    intro fuel pos hf _ _
    cases fuel with
    | zero => omega
    | succ f => rfl
  | cons l rest ih =>
    intro fuel pos hf hnl hsec
    cases fuel with
    | zero => omega
    | succ f =>
      have hlnl : ('\n' : Char) ∉ l := hnl l (List.mem_cons_self l rest)
      have hlsec : secLineB sec l = false := hsec l (List.mem_cons_self l rest)
      by_cases hre : rest = []
      · subst hre
        simp only [joinLines]
        have hm : secMatchLen sec l = none := by
          rw [secMatchLen_line_nil sec l hlnl, hlsec]
          simp
        simp only [sectionEndGo, hm, lineOf_no_nl l hlnl, List.drop_length]
      · rw [joinLines_cons l rest hre]
        have hm : secMatchLen sec (l ++ '\n' :: joinLines rest) = none := by
          rw [secMatchLen_line_cons sec l (joinLines rest) hsnl hlnl, hlsec]
          simp
        simp only [sectionEndGo, hm, lineOf_append l (joinLines rest) hlnl, List.drop_left]
        apply ih
        · have := hf
          rw [joinLines_cons l rest hre] at this
          simp only [List.length_append, List.length_cons] at this
          omega
        · intro m hm2
          exact hnl m (List.mem_cons_of_mem _ hm2)
        · intro m hm2
          exact hsec m (List.mem_cons_of_mem _ hm2)

theorem sectionEndGo_found (sec : List Char) (hsnl : ('\n' : Char) ∉ sec)
    (ls : List (List Char)) :
    ∀ (fuel pos i : Nat) (hi : i < ls.length),
      (joinLines ls).length < fuel →
      (∀ l ∈ ls, ('\n' : Char) ∉ l) →
      secLineB sec (ls.get ⟨i, hi⟩) = true →
      (∀ k (hk : k < ls.length), k < i → secLineB sec (ls.get ⟨k, hk⟩) = false) →
      sectionEndGo sec fuel (joinLines ls) pos
        = some (pos + (joinLines (ls.take (i + 1))).length) := by
  induction ls with
  | nil =>
    intro fuel pos i hi
    exact absurd hi (by simp)
  | cons l rest ih =>
    intro fuel pos i hi hf hnl hmatch hbefore
    cases fuel with
    | zero => omega
    | succ f =>
      have hlnl : ('\n' : Char) ∉ l := hnl l (List.mem_cons_self l rest)
      cases i with
      | zero =>
        have hl : secLineB sec l = true := hmatch
        by_cases hre : rest = []
        · subst hre
          simp only [joinLines]
          have hm : secMatchLen sec l = some l.length := by
            rw [secMatchLen_line_nil sec l hlnl, hl]
            simp
          simp only [sectionEndGo, hm, List.take_succ_cons, List.take_zero]
        · rw [joinLines_cons l rest hre]
          have hm : secMatchLen sec (l ++ '\n' :: joinLines rest) = some l.length := by
            rw [secMatchLen_line_cons sec l (joinLines rest) hsnl hlnl, hl]
            simp
          simp only [sectionEndGo, hm, List.take_succ_cons, List.take_zero]
          rfl
      | succ i' =>
        have hl : secLineB sec l = false := hbefore 0 (by simp) (Nat.succ_pos i')
        have hi' : i' < rest.length := by
          simp only [List.length_cons] at hi
          omega
        have hre : rest ≠ [] := by
          intro hre
          rw [hre] at hi'
          simp at hi'
        have htk : rest.take (i' + 1) ≠ [] := by
          intro htk2
          rcases List.take_eq_nil_iff.mp htk2 with h1 | h1 <;> simp_all
        rw [joinLines_cons l rest hre]
        have hm : secMatchLen sec (l ++ '\n' :: joinLines rest) = none := by
          rw [secMatchLen_line_cons sec l (joinLines rest) hsnl hlnl, hl]
          simp
        simp only [sectionEndGo, hm, lineOf_append l (joinLines rest) hlnl, List.drop_left]
        rw [ih f (pos + l.length + 1) i' hi' ?_ ?_ ?_ ?_]
        · rw [List.take_succ_cons, joinLines_cons l (rest.take (i' + 1)) htk]
          simp only [List.length_append, List.length_cons]
          congr 1
          omega
        · have := hf
          rw [joinLines_cons l rest hre] at this
          simp only [List.length_append, List.length_cons] at this
          omega
        · intro m hm
          exact hnl m (List.mem_cons_of_mem _ hm)
        · exact hmatch
        · intro k hk hki
          exact hbefore (k + 1) (by simpa using Nat.succ_lt_succ hk) (Nat.succ_lt_succ hki)

theorem takeWhile_hash_append (m t : List Char) :
    ((m ++ '\n' :: t).takeWhile (· == '#')).length = (m.takeWhile (· == '#')).length := by
  induction m with
  | nil => simp [List.takeWhile_cons]
  | cons c m' ih =>
    by_cases hc : (c == '#') = true
    · simp only [List.cons_append, List.takeWhile_cons, hc, if_true, List.length_cons, ih]
    · simp only [List.cons_append, List.takeWhile_cons, hc, Bool.false_eq_true, if_false,
        List.length_nil]

theorem headD_dropWhile_hash_append (m t : List Char) :
    (((m ++ '\n' :: t).dropWhile (· == '#')).headD 'x' == ' ')
      = ((m.dropWhile (· == '#')).headD 'x' == ' ') := by
  induction m with
  | nil => simp [List.dropWhile_cons]
  | cons c m' ih =>
    by_cases hc : (c == '#') = true
    · simp only [List.cons_append, List.dropWhile_cons, hc, if_true, ih]
    · simp only [List.cons_append, List.dropWhile_cons, hc, Bool.false_eq_true, if_false,
        List.headD_cons]

theorem h2LineB_join (m t : List Char) :
    h2LineB (m ++ '\n' :: t) = h2LineB m := by
  rw [h2LineB, h2LineB, takeWhile_hash_append, headD_dropWhile_hash_append]

theorem nlHeadingPos_skip (m : List Char) :
    ∀ (t : List Char) (pos : Nat), ('\n' : Char) ∉ m →
      nlHeadingPos (m ++ t) pos = nlHeadingPos t (pos + m.length) := by
  induction m with
  | nil =>
    intro t pos _
    simp
  | cons c m' ih =>
    intro t pos h
    have hc : (c == '\n') = false := by
      simp only [beq_eq_false_iff_ne, ne_eq]
      intro hb
      exact h (hb ▸ List.mem_cons_self c m')
    simp only [List.cons_append, nlHeadingPos, hc, Bool.false_eq_true, if_false,
      List.append_eq]
    rw [ih t (pos + 1) (fun hm => h (List.mem_cons_of_mem _ hm))]
    congr 1
    simp only [List.length_cons]
    omega

theorem nlHeadingPos_join_none (ms : List (List Char)) :
    ∀ (pos : Nat), (∀ l ∈ ms, ('\n' : Char) ∉ l) → (∀ l ∈ ms, h2LineB l = false) →
      nlHeadingPos ('\n' :: joinLines ms) pos = none := by
  induction ms with
  | nil =>
    intro pos _ _
    rfl
  | cons m ms' ih =>
    intro pos hnl hh2
    have hmnl := hnl m (List.mem_cons_self m ms')
    by_cases hre : ms' = []
    · subst hre
      simp only [joinLines]
      simp only [nlHeadingPos, beq_self_eq_true, if_true, hh2 m (List.mem_cons_self m []),
        Bool.false_eq_true, if_false]
      have hskip := nlHeadingPos_skip m [] (pos + 1) hmnl
      rw [List.append_nil] at hskip
      rw [hskip]
      rfl
    · rw [joinLines_cons m ms' hre]
      have hm2' : h2LineB (m ++ '\n' :: joinLines ms') = false := by
        rw [h2LineB_join]
        exact hh2 m (List.mem_cons_self m ms')
      simp only [nlHeadingPos, beq_self_eq_true, if_true, hm2', Bool.false_eq_true, if_false]
      rw [nlHeadingPos_skip m ('\n' :: joinLines ms') (pos + 1) hmnl]
      exact ih (pos + 1 + m.length) (fun l hl => hnl l (List.mem_cons_of_mem _ hl))
        (fun l hl => hh2 l (List.mem_cons_of_mem _ hl))

theorem nlHeadingPos_join_found (ms : List (List Char)) :
    ∀ (pos j : Nat) (hj : j < ms.length),
      (∀ l ∈ ms, ('\n' : Char) ∉ l) →
      h2LineB (ms.get ⟨j, hj⟩) = true →
      (∀ k (hk : k < ms.length), k < j → h2LineB (ms.get ⟨k, hk⟩) = false) →
      nlHeadingPos ('\n' :: joinLines ms) pos
        = some (pos + (if j = 0 then 0 else (joinLines (ms.take j)).length + 1)) := by
  induction ms with
  | nil =>
    intro pos j hj
    exact absurd hj (by simp)
  | cons m ms' ih =>
    intro pos j hj hnl hmatch hbefore
    have hmnl := hnl m (List.mem_cons_self m ms')
    cases j with
    | zero =>
      have hm2 : h2LineB m = true := hmatch
      by_cases hre : ms' = []
      · subst hre
        simp only [joinLines]
        simp only [nlHeadingPos, beq_self_eq_true, if_true, hm2, if_pos]
        simp
      · rw [joinLines_cons m ms' hre]
        have hm2' : h2LineB (m ++ '\n' :: joinLines ms') = true := by
          rw [h2LineB_join]
          exact hm2
        simp only [nlHeadingPos, beq_self_eq_true, if_true, hm2']
        simp
    | succ j' =>
      have hm2 : h2LineB m = false := hbefore 0 (by simp) (Nat.succ_pos j')
      have hj' : j' < ms'.length := by
        simp only [List.length_cons] at hj
        omega
      have hre : ms' ≠ [] := by
        intro hre
        rw [hre] at hj'
        simp at hj'
      rw [joinLines_cons m ms' hre]
      have hm2' : h2LineB (m ++ '\n' :: joinLines ms') = false := by
        rw [h2LineB_join]
        exact hm2
      simp only [nlHeadingPos, beq_self_eq_true, if_true, hm2', Bool.false_eq_true, if_false]
      rw [nlHeadingPos_skip m ('\n' :: joinLines ms') (pos + 1) hmnl]
      rw [ih (pos + 1 + m.length) j' hj' (fun l hl => hnl l (List.mem_cons_of_mem _ hl))
        hmatch (fun k hk hkj => hbefore (k + 1) (by simpa using Nat.succ_lt_succ hk)
          (Nat.succ_lt_succ hkj))]
      congr 1
      cases Nat.eq_zero_or_pos j' with
      | inl hz =>
        subst hz
        have hjl : joinLines ((m :: ms').take 1) = m := rfl
        simp only [hjl]
        simp
        omega
      | inr hpos =>
        rw [if_neg (Nat.pos_iff_ne_zero.mp hpos), if_neg (Nat.succ_ne_zero j')]
        have htk : ms'.take j' ≠ [] := by
          intro htk2
          rcases List.take_eq_nil_iff.mp htk2 with h1 | h1 <;> simp_all
        rw [List.take_succ_cons, joinLines_cons m (ms'.take j') htk]
        simp only [List.length_append, List.length_cons]
        omega

/-- C2 amended, for a section name containing no newline (a section name
with embedded newlines makes `section_pattern` match across lines, which
`secMatchLen` models and `append_cross_line_section` exercises): decomposing the
note into its newline-free lines, the section append locates the FIRST line
matching `##+ <section>` — two or more marker characters (no upper bound),
a space, then the section name as a prefix of the line's text; level-one
headings never match.  If no line matches, it appends a fresh level-two
heading plus the content at document end.  If a match exists and no later
line starts a `##+ `-heading, the content goes to the document end — after,
not before, any text already inside the section.  Otherwise the content is
inserted immediately before the first such later heading line. -/
theorem C2_amended (ls : List (List Char)) (x s : List Char)
    (hs : ('\n' : Char) ∉ s)
    (hnl : ∀ l ∈ ls, ('\n' : Char) ∉ l) :
    ((∀ l ∈ ls, secLineB s l = false) →
       append_to_note (joinLines ls) x (some s)
         = pyRstrip (joinLines ls) ++ ('\n' :: '\n' :: '#' :: '#' :: ' ' :: s)
             ++ ('\n' :: '\n' :: x) ++ ['\n'])
    ∧ (∀ i (hi : i < ls.length),
        secLineB s (ls.get ⟨i, hi⟩) = true →
        (∀ k (hk : k < ls.length), k < i → secLineB s (ls.get ⟨k, hk⟩) = false) →
        ((∀ j (hj : j < ls.length), i < j → h2LineB (ls.get ⟨j, hj⟩) = false) →
           append_to_note (joinLines ls) x (some s)
             = pyRstrip (joinLines ls) ++ ('\n' :: '\n' :: x) ++ ['\n'])
        ∧ (∀ j (hj : j < ls.length), i < j → h2LineB (ls.get ⟨j, hj⟩) = true →
            (∀ m (hm : m < ls.length), i < m → m < j → h2LineB (ls.get ⟨m, hm⟩) = false) →
            append_to_note (joinLines ls) x (some s)
              = pyRstrip (joinLines (ls.take j)) ++ ('\n' :: '\n' :: x)
                  ++ ('\n' :: '\n' :: joinLines (ls.drop j)))) := by
  constructor
  · intro hnone
    have hsec : sectionEndPos s (joinLines ls) = none := by
      rw [sectionEndPos]
      exact sectionEndGo_none s hs ls ((joinLines ls).length + 1) 0 (Nat.lt_succ_self _)
        hnl hnone
    simp only [append_to_note, hsec]
  · intro i hi hmatch hbefore
    have he' : sectionEndPos s (joinLines ls)
        = some ((joinLines (ls.take (i + 1))).length) := by
      rw [sectionEndPos]
      rw [sectionEndGo_found s hs ls ((joinLines ls).length + 1) 0 i hi (Nat.lt_succ_self _)
        hnl hmatch hbefore]
      rw [Nat.zero_add]
    constructor
    · intro hafter
      have hnone : nlHeadingPos
          ((joinLines ls).drop (joinLines (ls.take (i + 1))).length) 0 = none := by
        by_cases hlast : i + 1 < ls.length
        · have hdrop : (joinLines ls).drop (joinLines (ls.take (i + 1))).length
              = '\n' :: joinLines (ls.drop (i + 1)) := by
            rw [joinLines_split ls (i + 1) (Nat.succ_pos i) hlast]
            exact List.drop_left _ _
          rw [hdrop]
          apply nlHeadingPos_join_none
          · intro l hl
            exact hnl l (List.mem_of_mem_drop hl)
          · intro l hl
            rcases List.mem_iff_get.mp hl with ⟨⟨j', hj'⟩, rfl⟩
            rw [List.get_drop']
            apply hafter
            · have := hj'
              rw [List.length_drop] at this
              omega
        · have hieq : i + 1 = ls.length := by omega
          have htake : ls.take (i + 1) = ls := by
            rw [hieq]
            exact List.take_length ls
          rw [htake, List.drop_length]
          rfl
      simp only [append_to_note, he', hnone]
    · intro j hj hij hj2 hmid
      have hlast : i + 1 < ls.length := lt_of_le_of_lt hij hj
      have hdrop : (joinLines ls).drop (joinLines (ls.take (i + 1))).length
          = '\n' :: joinLines (ls.drop (i + 1)) := by
        rw [joinLines_split ls (i + 1) (Nat.succ_pos i) hlast]
        exact List.drop_left _ _
      have hjl : j - (i + 1) < (ls.drop (i + 1)).length := by
        rw [List.length_drop]
        omega
      have hgetjl : (ls.drop (i + 1)).get ⟨j - (i + 1), hjl⟩ = ls.get ⟨j, hj⟩ := by
        rw [List.get_drop']
        congr 1
        simp only [Fin.mk.injEq]
        omega
      have hfound : nlHeadingPos
          ((joinLines ls).drop (joinLines (ls.take (i + 1))).length) 0
          = some (0 + (if j - (i + 1) = 0 then 0
              else (joinLines ((ls.drop (i + 1)).take (j - (i + 1)))).length + 1)) := by
        rw [hdrop]
        apply nlHeadingPos_join_found
        · intro l hl
          exact hnl l (List.mem_of_mem_drop hl)
        · rw [hgetjl]
          exact hj2
        · intro k hk hkj
          have hk2 : i + 1 + k < ls.length := by
            rw [List.length_drop] at hk
            omega
          have hget2 : (ls.drop (i + 1)).get ⟨k, hk⟩ = ls.get ⟨i + 1 + k, hk2⟩ := by
            rw [List.get_drop']
          rw [hget2]
          exact hmid (i + 1 + k) hk2 (by omega) (by omega)
      have hip : (joinLines (ls.take (i + 1))).length
          + (0 + (if j - (i + 1) = 0 then 0
              else (joinLines ((ls.drop (i + 1)).take (j - (i + 1)))).length + 1))
          = (joinLines (ls.take j)).length := by
        by_cases hjeq : j = i + 1
        · rw [if_pos (by omega)]
          rw [hjeq]
          omega
        · have hcond : j - (i + 1) ≠ 0 := by omega
          rw [if_neg hcond]
          have hjlen : (ls.take j).length = j := by
            rw [List.length_take]
            omega
          have hsp : joinLines (ls.take j)
              = joinLines ((ls.take j).take (i + 1))
                  ++ '\n' :: joinLines ((ls.take j).drop (i + 1)) := by
            apply joinLines_split (ls.take j) (i + 1) (Nat.succ_pos i)
            rw [hjlen]
            omega
          rw [hsp, List.take_take, Nat.min_def, if_pos (by omega : i + 1 ≤ j),
            List.drop_take]
          simp only [List.length_append, List.length_cons]
          omega
      have hjpos : 0 < j := by omega
      have htake2 : (joinLines ls).take (joinLines (ls.take j)).length
          = joinLines (ls.take j) := by
        rw [joinLines_split ls j hjpos hj]
        exact List.take_left _ _
      have hdrop2 : (joinLines ls).drop (joinLines (ls.take j)).length
          = '\n' :: joinLines (ls.drop j) := by
        rw [joinLines_split ls j hjpos hj]
        exact List.drop_left _ _
      simp only [append_to_note, he', hfound]
      rw [hip, htake2, hdrop2]

/-- The cross-line behaviour of `section_pattern` when the section name
itself contains a newline (its escaped form matches a literal newline): at
the note `## S` newline `T more` with section name `S` newline `T`, the
match spans both lines and the content is appended inside the section — no
fresh heading is created. -/
theorem append_cross_line_section :
    append_to_note ("## S\nT more".toList) ("X".toList) (some ("S\nT".toList))
      = ("## S\nT more\n\nX\n".toList)
    ∧ sectionEndPos ("S\nT".toList) ("## S\nT more".toList) = some 11 := by
  refine ⟨by decide, by decide⟩

/-- C2 witness: in `preamble`, `## S`, `a`, `## T`, `b`, appending `X` under
`S` inserts `X` immediately before the `## T` line, after the existing
section content `a`. -/
theorem C2_amended_witness :
    append_to_note ("preamble\n## S\na\n## T\nb".toList) ("X".toList) (some ("S".toList))
      = ("preamble\n## S\na\n\nX\n\n## T\nb".toList) := by
  have h := ((C2_amended [("preamble".toList), ("## S".toList), ("a".toList),
      ("## T".toList), ("b".toList)] ("X".toList) ("S".toList) (by decide) (by decide)).2
      1 (by decide) (by decide) (by decide)).2
      3 (by decide) (by decide) (by decide) (by decide)
  exact h.trans (by decide)

end VaultEngine
